import Mathlib

/-!
# Fault-formation terrain generator: a shallow embedding of `driver.js`

The terrain core of `driver.js` (`makeTerrain`, `addNormals`, `setupGeomery`,
`generateTerrain`) is embedded over an arbitrary linearly ordered field `K`
("exact arithmetic"): it runs on `ℚ` and is reasoned about on any such field,
`ℝ` included.

Conventions of the embedding.

* A JavaScript `for (let i = 0; i < n; i++)` loop over a mutable state is
  `forLoop n init body`, a left fold of the body over `0, 1, …, n-1`.
* Arrays are lists; `a[i]` is `a.getD i 0` and `a[i] = v` is `a.set i v`.
  Every array access of the embedded code is in range whenever
  `gridsize ≥ 1`, so neither the default nor the no-op of `set` is reached.
* The built-in `Math` object is a parameter (`JSMath`): `Math.random()` is a
  stream indexed by the number of earlier calls, `Math.cos`, `Math.sin`,
  `Math.sqrt` and `Math.PI` are fields. `Math.abs` and `Math.pow(_, 2)` are
  the field's own absolute value and square.
* Division is the field's division; the model agrees with the program only
  where the divisor is non-zero (JavaScript would produce `Infinity`/`NaN`
  where the field convention gives `0`).
* The WebGL calls and `console.log` have no effect on the returned values and
  are left out.
-/

namespace Terrain

/-- A three-component vector (a normal). -/
abbrev Vec3 (K : Type) := K × K × K

/-- A four-component vector `[x, y, z, w]` (a position). -/
abbrev Vec4 (K : Type) := K × K × K × K

/-- A triangle: three vertex indices. -/
abbrev Triangle := ℕ × ℕ × ℕ

/-- The object `g` built by `makeTerrain`: `g.triangles`, `g.attributes[0]`
(positions) and `g.attributes[1]` (normals). -/
structure Geometry (K : Type) where
  triangles : List Triangle
  positions : List (Vec4 K)
  normals : List (Vec3 K)

/-- The part of the JavaScript `Math` object the program uses. `random n` is
the value returned by the `n`-th call of `Math.random()` (counting from 0)
made by one run of `makeTerrain`. -/
structure JSMath (K : Type) where
  random : ℕ → K
  cos : K → K
  sin : K → K
  sqrt : K → K
  PI : K

/-- One fault: the point `(px, pz)` and the direction `(nx, nz)`. -/
structure Fault (K : Type) where
  px : K
  pz : K
  nx : K
  nz : K

/-- The result of `setupGeomery` that depends on the geometry: the contents of
the `Uint16Array` index buffer and the `count` field. -/
structure IndexBuffer where
  indices : List ℕ
  count : ℕ
deriving DecidableEq

/-- `for (let i = 0; i < n; i++) body`, threading the state. -/
def forLoop {σ : Type} (n : ℕ) (init : σ) (body : σ → ℕ → σ) : σ :=
  (List.range n).foldl body init

section Core

variable {K : Type} [LinearOrderedField K]

/-- `data[idx][1] += d` on a list of positions. -/
def addY (pos : List (Vec4 K)) (idx : ℕ) (d : K) : List (Vec4 K) :=
  let p := pos.getD idx 0
  pos.set idx (p.1, p.2.1 + d, p.2.2.1, p.2.2.2)

/-- `data[idx][1] = v` on a list of positions. -/
def setY (pos : List (Vec4 K)) (idx : ℕ) (v : K) : List (Vec4 K) :=
  let p := pos.getD idx 0
  pos.set idx (p.1, v, p.2.2.1, p.2.2.2)

/-- Lines 174-185 of `driver.js`: the flat grid of positions. -/
def gridPositions (gridsize : ℕ) : List (Vec4 K) :=
  let step : K := 2 / ((gridsize : K) - 1)
  forLoop gridsize [] fun g i =>
    forLoop gridsize g fun g j =>
      let x := -1 + (j : K) * step
      let z := -1 + (i : K) * step
      g ++ [(x, 0, z, 1)]

/-- Lines 189-193: the random draws of fault number `fault`. -/
def drawFault (M : JSMath K) (fault : ℕ) : Fault K :=
  let px := M.random (3 * fault) * 2 - 1
  let pz := M.random (3 * fault + 1) * 2 - 1
  let theta := M.random (3 * fault + 2) * 2 * M.PI
  let nx := M.cos theta
  let nz := M.sin theta
  ⟨px, pz, nx, nz⟩

/-- Lines 196-217: one fault applied to every vertex of the grid. -/
def applyFault (gridsize : ℕ) (f : Fault K) (pos : List (Vec4 K)) : List (Vec4 K) :=
  let delta : K := 1 / 100
  let R : K := 1 / 2
  forLoop gridsize pos fun pos i =>
    forLoop gridsize pos fun pos j =>
      let idx := i * gridsize + j
      let x := (pos.getD idx 0).1
      let z := (pos.getD idx 0).2.2.1
      let dotProduct := (x - f.px) * f.nx + (z - f.pz) * f.nz
      let r := |dotProduct|
      let weight := if r < R then (1 - (r / R) ^ 2) ^ 2 else 0
      if dotProduct ≥ 0 then addY pos idx (delta * weight)
      else addY pos idx (-(delta * weight))

/-- The fault loop of lines 187-218 for a given sequence of faults. -/
def applyFaults (gridsize : ℕ) (fs : List (Fault K)) (pos : List (Vec4 K)) :
    List (Vec4 K) :=
  fs.foldl (fun pos f => applyFault gridsize f pos) pos

/-- Lines 221-226: the scan for `minY` and `maxY`. `none` is the initial
`Infinity` (for `minY`) or `-Infinity` (for `maxY`), which every height
replaces. -/
def heightRange (pos : List (Vec4 K)) : Option K × Option K :=
  forLoop pos.length (none, none) fun s i =>
    let y := (pos.getD i 0).2.1
    let minY := match s.1 with
      | none => some y
      | some m => if y < m then some y else some m
    let maxY := match s.2 with
      | none => some y
      | some m => if y > m then some y else some m
    (minY, maxY)

/-- Lines 228-235: the height normalisation. When the position list is empty
`minY` and `maxY` are still infinite, the test `maxY != minY` succeeds and the
loop body runs zero times. -/
def normalizeHeights (pos : List (Vec4 K)) : List (Vec4 K) :=
  let c : K := 1
  match heightRange pos with
  | (some minY, some maxY) =>
    if maxY ≠ minY then
      forLoop pos.length pos fun pos i =>
        let y := (pos.getD i 0).2.1
        setY pos i (c * (y - (1 / 2) * (maxY + minY)) / (maxY - minY))
    else pos
  | _ => pos

/-- Lines 237-250: two triangles per grid cell. -/
def gridTriangles (gridsize : ℕ) : List Triangle :=
  forLoop (gridsize - 1) [] fun tris i =>
    forLoop (gridsize - 1) tris fun tris j =>
      let topLeft := i * gridsize + j
      let topRight := topLeft + 1
      let bottomLeft := (i + 1) * gridsize + j
      let bottomRight := bottomLeft + 1
      (tris ++ [(topLeft, topRight, bottomLeft)]) ++ [(topRight, bottomRight, bottomLeft)]

/-- Modelled from the spec: `sub` of `math.js`, which is not part of the
sources; the spec's `pos[b]-pos[a]`, componentwise on positions. -/
def sub (a b : Vec4 K) : Vec4 K :=
  (a.1 - b.1, a.2.1 - b.2.1, a.2.2.1 - b.2.2.1, a.2.2.2 - b.2.2.2)

/-- Modelled from the spec: `cross` of `math.js`, which is not part of the
sources; the cross product of the `x, y, z` parts of two edge vectors. -/
def cross (a b : Vec4 K) : Vec3 K :=
  (a.2.1 * b.2.2.1 - a.2.2.1 * b.2.1,
   a.2.2.1 * b.1 - a.1 * b.2.2.1,
   a.1 * b.2.1 - a.2.1 * b.1)

/-- Modelled from the spec: `mul` of `math.js`, which is not part of the
sources; a vector scaled by a number (the spec's negation is `mul n (-1)`). -/
def mul (a : Vec3 K) (s : K) : Vec3 K :=
  (a.1 * s, a.2.1 * s, a.2.2 * s)

/-- Modelled from the spec: `add` of `math.js`, which is not part of the
sources; the spec's accumulation of a face normal, componentwise. -/
def add (a b : Vec3 K) : Vec3 K :=
  (a.1 + b.1, a.2.1 + b.2.1, a.2.2 + b.2.2)

/-- The squared length of a vector. -/
def normSq (a : Vec3 K) : K :=
  a.1 * a.1 + a.2.1 * a.2.1 + a.2.2 * a.2.2

/-- Modelled from the spec: `normalize` of `math.js`, which is not part of the
sources; the spec's "normalize to unit length", the vector divided by its
length `sqrt (x² + y² + z²)`. -/
def normalize (M : JSMath K) (a : Vec3 K) : Vec3 K :=
  let mag := M.sqrt (normSq a)
  (a.1 / mag, a.2.1 / mag, a.2.2 / mag)

/-- Lines 338-340 of `addNormals`: one zero accumulator per vertex. -/
def initNormals (geom : Geometry K) : List (Vec3 K) :=
  forLoop geom.positions.length geom.normals fun ns _ => ns ++ [(0, 0, 0)]

/-- Lines 342-348 of `addNormals`: the flipped face normal of triangle `t`. -/
def faceNormal (pos : List (Vec4 K)) (t : Triangle) : Vec3 K :=
  let p0 := pos.getD t.1 0
  let p1 := pos.getD t.2.1 0
  let p2 := pos.getD t.2.2 0
  let e1 := sub p1 p0
  let e2 := sub p2 p0
  let n := cross e1 e2
  mul n (-1)

/-- Lines 341-352 of `addNormals`: the accumulation of the flipped face
normals on the three corners of every triangle. -/
def accumulateNormals (geom : Geometry K) (normals : List (Vec3 K)) : List (Vec3 K) :=
  forLoop geom.triangles.length normals fun ns i =>
    let t := geom.triangles.getD i (0, 0, 0)
    let n := faceNormal geom.positions t
    let ns := ns.set t.1 (add (ns.getD t.1 0) n)
    let ns := ns.set t.2.1 (add (ns.getD t.2.1 0) n)
    let ns := ns.set t.2.2 (add (ns.getD t.2.2 0) n)
    ns

/-- The function `addNormals` (lines 333-358). -/
def addNormals (M : JSMath K) (geom : Geometry K) : Geometry K :=
  let normals := initNormals geom
  let normals := accumulateNormals geom normals
  let normals := forLoop geom.positions.length normals fun ns i =>
    ns.set i (normalize M (ns.getD i 0))
  { geom with normals := normals }

/-- The positions of `makeTerrain` before `addNormals` (lines 174-235). -/
def terrainPositions (M : JSMath K) (gridsize faults : ℕ) : List (Vec4 K) :=
  let pos := gridPositions gridsize
  let pos := forLoop faults pos fun pos fault => applyFault gridsize (drawFault M fault) pos
  normalizeHeights pos

/-- The function `makeTerrain` (lines 157-256). -/
def makeTerrain (M : JSMath K) (gridsize faults : ℕ) : Geometry K :=
  let g : Geometry K :=
    { triangles := gridTriangles gridsize
      positions := terrainPositions M gridsize faults
      normals := [] }
  addNormals M g

/-- The function `setupGeomery` (lines 135-155): `new Uint16Array(geom.triangles.flat())`
stores every index modulo `2^16`; `count` is the length of that array. -/
def setupGeomery (geom : Geometry K) : IndexBuffer :=
  let flat := geom.triangles.flatMap fun t => [t.1, t.2.1, t.2.2]
  let indices := flat.map fun k => k % 65536
  { indices := indices, count := indices.length }

/-- The function `generateTerrain` (lines 42-54) on the numbers read from the
two input fields, taken to be non-negative integers: `Number(v) || 2` is `2`
when the field reads `0` and `Number(v) || 0` is the number itself. -/
def generateTerrain (M : JSMath K) (gridsizeField faultsField : ℕ) : IndexBuffer :=
  let gridsize := if gridsizeField = 0 then 2 else gridsizeField
  let faults := if faultsField = 0 then 0 else faultsField
  setupGeomery (makeTerrain M gridsize faults)

/-! ### Definitions used to state and prove the theorems -/

/-- The position pushed by the grid loop for row `i` and column `j`. -/
def gridPoint (gridsize i j : ℕ) : Vec4 K :=
  (-1 + (j : K) * (2 / ((gridsize : K) - 1)), 0, -1 + (i : K) * (2 / ((gridsize : K) - 1)), 1)

/-- The first triangle of cell `(i, j)`: `(topLeft, topRight, bottomLeft)`. -/
def firstTriangle (gridsize i j : ℕ) : Triangle :=
  (i * gridsize + j, i * gridsize + j + 1, (i + 1) * gridsize + j)

/-- The second triangle of cell `(i, j)`: `(topRight, bottomRight, bottomLeft)`. -/
def secondTriangle (gridsize i j : ℕ) : Triangle :=
  (i * gridsize + j + 1, (i + 1) * gridsize + j + 1, (i + 1) * gridsize + j)

/-- The height change the spec gives one fault at a vertex with coordinates
`x`, `z`: with `d = (x-px)*nx + (z-pz)*nz`, `r = |d|`, `R = 0.5` and
`delta = 0.01`, the weight is `w = (1 - (r/R)²)²` when `r < R`, else `0`, and the
change is `+delta*w` if `d ≥ 0`, else `-delta*w`. -/
def specFaultDelta (f : Fault K) (x z : K) : K :=
  let d := (x - f.px) * f.nx + (z - f.pz) * f.nz
  let r := |d|
  let w := if r < 1 / 2 then (1 - (r / (1 / 2)) ^ 2) ^ 2 else 0
  if d ≥ 0 then (1 / 100) * w else -((1 / 100) * w)

/-- A position with its height raised by `d`. -/
def raise (p : Vec4 K) (d : K) : Vec4 K := (p.1, p.2.1 + d, p.2.2.1, p.2.2.2)

/-- One step of the `minY` scan: `if (y < minY) minY = y`. -/
def minStep (s : Option K) (y : K) : Option K :=
  match s with
  | none => some y
  | some m => if y < m then some y else some m

/-- One step of the `maxY` scan: `if (y > maxY) maxY = y`. -/
def maxStep (s : Option K) (y : K) : Option K :=
  match s with
  | none => some y
  | some m => if y > m then some y else some m

/-- The number `m` is the least element of the list `l`. -/
def IsMinOf (l : List K) (m : K) : Prop := m ∈ l ∧ ∀ y ∈ l, m ≤ y

/-- The number `m` is the greatest element of the list `l`. -/
def IsMaxOf (l : List K) (m : K) : Prop := m ∈ l ∧ ∀ y ∈ l, y ≤ m

/-- The remapping of one height by the normalisation step. -/
def rescale (minY maxY : K) (p : Vec4 K) : Vec4 K :=
  (p.1, 1 * (p.2.1 - (1 / 2) * (maxY + minY)) / (maxY - minY), p.2.2.1, p.2.2.2)

/-- The function `f` is the non-negative square root on non-negative numbers. -/
def IsSqrt (f : K → K) : Prop := ∀ x, 0 ≤ x → 0 ≤ f x ∧ f x * f x = x

/-- The number of corners of the triangles of `tris` that are vertex `v`. -/
def cornerCount (tris : List Triangle) (v : ℕ) : ℕ :=
  (tris.map fun t =>
    (if t.1 = v then 1 else 0) + (if t.2.1 = v then 1 else 0) + (if t.2.2 = v then 1 else 0)).sum

/-- The body of the accumulation loop of `addNormals` for one triangle. -/
def accumulateStep (pos : List (Vec4 K)) (ns : List (Vec3 K)) (t : Triangle) : List (Vec3 K) :=
  let n := faceNormal pos t
  let ns := ns.set t.1 (add (ns.getD t.1 0) n)
  let ns := ns.set t.2.1 (add (ns.getD t.2.1 0) n)
  let ns := ns.set t.2.2 (add (ns.getD t.2.2 0) n)
  ns

/-- The accumulators of `addNormals` after the triangle loop and before the
final normalisation, for a geometry that enters with no normals. -/
def normalSums (tris : List Triangle) (pos : List (Vec4 K)) : List (Vec3 K) :=
  accumulateNormals ⟨tris, pos, []⟩ (initNormals ⟨tris, pos, []⟩)

/-- The heights (`y` components) of a list of positions. -/
def heights (pos : List (Vec4 K)) : List K := pos.map fun p => p.2.1

/-- The `x`, `z` and `w` components of a list of positions. -/
def xzw (pos : List (Vec4 K)) : List (K × K × K) := pos.map fun p => (p.1, p.2.2.1, p.2.2.2)

end Core

/-- A rational stand-in for `Math`, used to run the model: the draws cycle
through tenths, the direction `(cos t, sin t)` is the rational point
`((1-t²)/(1+t²), 2t/(1+t²))` of the unit circle, and `sqrt` is one Newton
step from `1`. -/
def sampleMath : JSMath ℚ where
  random := fun n => ((7 * n + 3) % 10 : ℕ) / 10
  cos := fun t => (1 - t ^ 2) / (1 + t ^ 2)
  sin := fun t => 2 * t / (1 + t ^ 2)
  sqrt := fun x => (1 + x) / 2
  PI := 355 / 113



/-! ## Loops -/

section Loops

variable {σ α : Type}

theorem forLoop_zero (s : σ) (body : σ → ℕ → σ) : forLoop 0 s body = s := rfl

theorem forLoop_succ (n : ℕ) (s : σ) (body : σ → ℕ → σ) :
    forLoop (n + 1) s body = body (forLoop n s body) n := by
  simp [forLoop, List.range_succ]

theorem forLoop_congr (n : ℕ) (s : σ) (b₁ b₂ : σ → ℕ → σ)
    (h : ∀ t k, k < n → b₁ t k = b₂ t k) : forLoop n s b₁ = forLoop n s b₂ := by
  induction n with
  | zero => rfl
  | succ n ih =>
    rw [forLoop_succ, forLoop_succ, ih (fun t k hk => h t k (Nat.lt_succ_of_lt hk)),
      h _ n (Nat.lt_succ_self n)]

theorem forLoop_add (a b : ℕ) (s : σ) (body : σ → ℕ → σ) :
    forLoop (a + b) s body = forLoop b (forLoop a s body) (fun t k => body t (a + k)) := by
  induction b with
  | zero => rfl
  | succ b ih => rw [← Nat.add_assoc, forLoop_succ, forLoop_succ, ih]

/-- A doubly nested counting loop is one loop over the row-major index. -/
theorem forLoop_nested (m n : ℕ) (s : σ) (body : σ → ℕ → ℕ → σ) :
    forLoop m s (fun t i => forLoop n t (fun u j => body u i j))
      = forLoop (m * n) s (fun t k => body t (k / n) (k % n)) := by
  induction m with
  | zero => simp [forLoop_zero]
  | succ m ih =>
    rw [forLoop_succ, ih, Nat.succ_mul, forLoop_add]
    apply forLoop_congr
    intro t k hk
    have hn : 0 < n := Nat.lt_of_le_of_lt (Nat.zero_le k) hk
    have h1 : (m * n + k) / n = m := by
      rw [Nat.add_comm, Nat.add_mul_div_right _ _ hn, Nat.div_eq_of_lt hk, Nat.zero_add]
    have h2 : (m * n + k) % n = k := by
      rw [Nat.add_comm, Nat.add_mul_mod_self_right, Nat.mod_eq_of_lt hk]
    rw [h1, h2]

/-- A loop that pushes one element per iteration builds the mapped range. -/
theorem forLoop_push (n : ℕ) (g : List α) (f : ℕ → α) :
    forLoop n g (fun t k => t ++ [f k]) = g ++ (List.range n).map f := by
  induction n with
  | zero => simp [forLoop_zero]
  | succ n ih => rw [forLoop_succ, ih, List.range_succ]; simp

/-- A loop over the indices of an array that only reads the current element
is a fold over the array. -/
theorem forLoop_getD (l : List α) (d : α) (s : σ) (F : σ → α → σ) :
    forLoop l.length s (fun t i => F t (l.getD i d)) = l.foldl F s := by
  induction l using List.reverseRecOn with
  | nil => rfl
  | append_singleton l a ih =>
    rw [List.length_append, List.length_singleton, forLoop_succ, List.foldl_append]
    have h : forLoop l.length s (fun t i => F t ((l ++ [a]).getD i d))
        = forLoop l.length s (fun t i => F t (l.getD i d)) := by
      apply forLoop_congr
      intro t k hk
      simp [List.getD_eq_getElem?_getD, List.getElem?_append_left hk]
    rw [h, ih]
    simp [List.getD_eq_getElem?_getD]

/-- A loop that rewrites element `k` of an array from its current value at
iteration `k` maps the function over the array. -/
theorem forLoop_pointwise (l : List α) (d : α) (g : ℕ → α → α) (n : ℕ) (hn : n ≤ l.length) :
    forLoop n l (fun t k => t.set k (g k (t.getD k d)))
      = (List.range l.length).map
          (fun k => if k < n then g k (l.getD k d) else l.getD k d) := by
  induction n with
  | zero =>
    rw [forLoop_zero]
    apply List.ext_getElem
    · simp
    · intro i h1 h2
      simp [List.getD_eq_getElem?_getD, List.getElem?_eq_getElem h1]
  | succ n ih =>
    rw [forLoop_succ, ih (Nat.le_of_succ_le hn)]
    apply List.ext_getElem
    · simp
    · intro i h1 h2
      have hi : i < l.length := by simpa using h2
      have hnl : n < l.length := hn
      simp only [List.getElem_set, List.getElem_map, List.getElem_range,
        List.getD_eq_getElem?_getD, List.getElem?_map, List.getElem?_range hnl]
      by_cases hin : n = i
      · subst hin
        simp
      · simp only [hin, if_false]
        by_cases hlt : i < n
        · simp [hlt, Nat.lt_succ_of_lt hlt]
        · have : ¬ i < n + 1 := by omega
          simp [hlt, this]

end Loops

/-! ## The grid of positions and the triangle list -/

section Grid

variable {K : Type} [LinearOrderedField K]

theorem gridPositions_eq (n : ℕ) :
    (gridPositions n : List (Vec4 K))
      = (List.range (n * n)).map (fun k => gridPoint n (k / n) (k % n)) := by
  unfold gridPositions
  simp only []
  rw [forLoop_nested n n [] (fun g i j =>
    g ++ [((-1 + (j : K) * (2 / ((n : K) - 1)), 0, -1 + (i : K) * (2 / ((n : K) - 1)), 1) : Vec4 K)])]
  exact (forLoop_push (n * n) [] (fun k => (gridPoint n (k / n) (k % n) : Vec4 K))).trans
    (List.nil_append _)

theorem gridPositions_length (n : ℕ) : (gridPositions n : List (Vec4 K)).length = n * n := by
  simp [gridPositions_eq]

theorem div_mod_rowMajor {n i j : ℕ} (hj : j < n) : (i * n + j) / n = i ∧ (i * n + j) % n = j := by
  have hn : 0 < n := Nat.lt_of_le_of_lt (Nat.zero_le j) hj
  constructor
  · rw [Nat.add_comm, Nat.add_mul_div_right _ _ hn, Nat.div_eq_of_lt hj, Nat.zero_add]
  · rw [Nat.add_comm, Nat.add_mul_mod_self_right, Nat.mod_eq_of_lt hj]

theorem rowMajor_lt {n i j : ℕ} (hi : i < n) (hj : j < n) : i * n + j < n * n := by
  have : (i + 1) * n ≤ n * n := Nat.mul_le_mul_right n hi
  have h2 : (i + 1) * n = i * n + n := Nat.succ_mul i n
  omega

theorem gridPositions_getD (n i j : ℕ) (hi : i < n) (hj : j < n) :
    (gridPositions n : List (Vec4 K)).getD (i * n + j) 0 = gridPoint n i j := by
  rw [gridPositions_eq, List.getD_eq_getElem?_getD, List.getElem?_map,
    List.getElem?_range (rowMajor_lt hi hj)]
  simp [(div_mod_rowMajor hj).1, (div_mod_rowMajor hj).2]

/-- A loop that pushes two elements per iteration. -/
theorem forLoop_push_two {α : Type} (n : ℕ) (g : List α) (a b : ℕ → α) :
    forLoop n g (fun t k => (t ++ [a k]) ++ [b k])
      = g ++ (List.range n).flatMap (fun k => [a k, b k]) := by
  induction n with
  | zero => simp [forLoop_zero]
  | succ n ih => rw [forLoop_succ, ih, List.range_succ, List.flatMap_append]; simp

theorem length_flatMap_pair {α : Type} (n : ℕ) (a b : ℕ → α) :
    ((List.range n).flatMap (fun k => [a k, b k])).length = 2 * n := by
  induction n with
  | zero => rfl
  | succ n ih => rw [List.range_succ, List.flatMap_append, List.length_append, ih]; simp; omega

theorem getElem?_flatMap_pair {α : Type} (n : ℕ) (a b : ℕ → α) (k : ℕ) (hk : k < n) :
    ((List.range n).flatMap (fun k => [a k, b k]))[2 * k]? = some (a k)
      ∧ ((List.range n).flatMap (fun k => [a k, b k]))[2 * k + 1]? = some (b k) := by
  induction n with
  | zero => omega
  | succ n ih =>
    rw [List.range_succ, List.flatMap_append]
    by_cases h : k < n
    · have h1 : 2 * k < ((List.range n).flatMap (fun k => [a k, b k])).length := by
        rw [length_flatMap_pair]; omega
      have h2 : 2 * k + 1 < ((List.range n).flatMap (fun k => [a k, b k])).length := by
        rw [length_flatMap_pair]; omega
      rw [List.getElem?_append_left h1, List.getElem?_append_left h2]
      exact ih h
    · have hkn : k = n := by omega
      subst hkn
      have h1 : ((List.range k).flatMap (fun k => [a k, b k])).length ≤ 2 * k := by
        rw [length_flatMap_pair]
      have h2 : ((List.range k).flatMap (fun k => [a k, b k])).length ≤ 2 * k + 1 := by
        rw [length_flatMap_pair]; omega
      rw [List.getElem?_append_right h1, List.getElem?_append_right h2, length_flatMap_pair]
      simp

theorem gridTriangles_eq (n : ℕ) :
    gridTriangles n = (List.range ((n - 1) * (n - 1))).flatMap (fun k =>
      [firstTriangle n (k / (n - 1)) (k % (n - 1)), secondTriangle n (k / (n - 1)) (k % (n - 1))]) := by
  unfold gridTriangles
  simp only []
  rw [forLoop_nested (n - 1) (n - 1) [] (fun tris i j =>
    (tris ++ [(i * n + j, i * n + j + 1, (i + 1) * n + j)])
      ++ [(i * n + j + 1, (i + 1) * n + j + 1, (i + 1) * n + j)])]
  exact (forLoop_push_two ((n - 1) * (n - 1)) []
    (fun k => firstTriangle n (k / (n - 1)) (k % (n - 1)))
    (fun k => secondTriangle n (k / (n - 1)) (k % (n - 1)))).trans (List.nil_append _)

theorem gridTriangles_length (n : ℕ) : (gridTriangles n).length = 2 * ((n - 1) * (n - 1)) := by
  rw [gridTriangles_eq, length_flatMap_pair]

theorem gridTriangles_getElem? (n i j : ℕ) (hi : i < n - 1) (hj : j < n - 1) :
    (gridTriangles n)[2 * (i * (n - 1) + j)]? = some (firstTriangle n i j)
      ∧ (gridTriangles n)[2 * (i * (n - 1) + j) + 1]? = some (secondTriangle n i j) := by
  have h := getElem?_flatMap_pair ((n - 1) * (n - 1))
    (fun k => firstTriangle n (k / (n - 1)) (k % (n - 1)))
    (fun k => secondTriangle n (k / (n - 1)) (k % (n - 1)))
    (i * (n - 1) + j) (rowMajor_lt hi hj)
  simp only [(div_mod_rowMajor hj).1, (div_mod_rowMajor hj).2] at h
  rw [gridTriangles_eq]
  exact h

theorem mem_gridTriangles (n : ℕ) (t : Triangle) :
    t ∈ gridTriangles n ↔
      ∃ i j, i < n - 1 ∧ j < n - 1 ∧ (t = firstTriangle n i j ∨ t = secondTriangle n i j) := by
  rw [gridTriangles_eq, List.mem_flatMap]
  constructor
  · rintro ⟨k, hk, ht⟩
    have hk2 : k < (n - 1) * (n - 1) := List.mem_range.mp hk
    have hpos : 0 < n - 1 := by
      rcases Nat.eq_zero_or_pos (n - 1) with h0 | h0
      · rw [h0] at hk2; omega
      · exact h0
    refine ⟨k / (n - 1), k % (n - 1), ?_, Nat.mod_lt _ hpos, ?_⟩
    · exact Nat.div_lt_of_lt_mul hk2
    · simpa using ht
  · rintro ⟨i, j, hi, hj, ht⟩
    refine ⟨i * (n - 1) + j, List.mem_range.mpr (rowMajor_lt hi hj), ?_⟩
    simp only [(div_mod_rowMajor hj).1, (div_mod_rowMajor hj).2]
    simpa using ht

/-- Every index of a grid triangle is a vertex index. -/
theorem gridTriangles_index_lt (n : ℕ) (t : Triangle) (ht : t ∈ gridTriangles n) :
    t.1 < n * n ∧ t.2.1 < n * n ∧ t.2.2 < n * n := by
  obtain ⟨i, j, hi, hj, h⟩ := (mem_gridTriangles n t).mp ht
  have h1 : (i + 1) * n + (j + 1) < n * n := rowMajor_lt (by omega) (by omega)
  have h2 : (i + 1) * n = i * n + n := Nat.succ_mul i n
  rw [h2] at h1
  rcases h with h | h <;> subst h <;> simp only [firstTriangle, secondTriangle, h2] <;>
    refine ⟨?_, ?_, ?_⟩ <;> omega

end Grid

/-! ## Fault application -/

section Faults

variable {K : Type} [LinearOrderedField K]

theorem forLoop_pointwise_all {α : Type} (l : List α) (d : α) (g : α → α) :
    forLoop l.length l (fun t k => t.set k (g (t.getD k d))) = l.map g := by
  rw [forLoop_pointwise l d (fun _ => g) l.length (Nat.le_refl _)]
  apply List.ext_getElem
  · simp
  · intro i h1 h2
    have hi : i < l.length := by simpa using h2
    simp [hi, List.getD_eq_getElem?_getD, List.getElem?_eq_getElem hi]

theorem applyFault_eq (n : ℕ) (f : Fault K) (pos : List (Vec4 K)) (hlen : pos.length = n * n) :
    applyFault n f pos = pos.map (fun p => raise p (specFaultDelta f p.1 p.2.2.1)) := by
  unfold applyFault
  simp only []
  rw [forLoop_nested n n pos (fun pos i j =>
    if (((pos.getD (i * n + j) 0).1 - f.px) * f.nx
        + ((pos.getD (i * n + j) 0).2.2.1 - f.pz) * f.nz) ≥ 0 then
      addY pos (i * n + j) ((1 / 100) *
        (if |((pos.getD (i * n + j) 0).1 - f.px) * f.nx
            + ((pos.getD (i * n + j) 0).2.2.1 - f.pz) * f.nz| < 1 / 2 then
          (1 - (|((pos.getD (i * n + j) 0).1 - f.px) * f.nx
            + ((pos.getD (i * n + j) 0).2.2.1 - f.pz) * f.nz| / (1 / 2)) ^ 2) ^ 2 else 0))
    else
      addY pos (i * n + j) (-((1 / 100) *
        (if |((pos.getD (i * n + j) 0).1 - f.px) * f.nx
            + ((pos.getD (i * n + j) 0).2.2.1 - f.pz) * f.nz| < 1 / 2 then
          (1 - (|((pos.getD (i * n + j) 0).1 - f.px) * f.nx
            + ((pos.getD (i * n + j) 0).2.2.1 - f.pz) * f.nz| / (1 / 2)) ^ 2) ^ 2 else 0))))]
  rw [← hlen, ← forLoop_pointwise_all pos 0 (fun p => raise p (specFaultDelta f p.1 p.2.2.1))]
  apply forLoop_congr
  intro t k _
  rw [Nat.div_add_mod']
  simp only [addY, raise, specFaultDelta]
  split <;> rfl

theorem applyFault_length (n : ℕ) (f : Fault K) (pos : List (Vec4 K))
    (hlen : pos.length = n * n) : (applyFault n f pos).length = n * n := by
  rw [applyFault_eq n f pos hlen, List.length_map, hlen]

theorem applyFaults_eq (n : ℕ) (fs : List (Fault K)) (pos : List (Vec4 K))
    (hlen : pos.length = n * n) :
    applyFaults n fs pos
      = pos.map (fun p => raise p ((fs.map (fun f => specFaultDelta f p.1 p.2.2.1)).sum)) := by
  induction fs generalizing pos with
  | nil =>
    simp only [applyFaults, List.foldl_nil, List.map_nil, List.sum_nil, raise, add_zero]
    exact (List.map_id _).symm
  | cons f fs ih =>
    have h := ih (applyFault n f pos) (applyFault_length n f pos hlen)
    simp only [applyFaults, List.foldl_cons] at h ⊢
    rw [h, applyFault_eq n f pos hlen, List.map_map]
    apply List.map_congr_left
    intro p _
    simp only [Function.comp, raise, List.map_cons, List.sum_cons, add_assoc]

/-- The fault loop of `makeTerrain` is `applyFaults` on the drawn faults. -/
theorem faultLoop_eq (M : JSMath K) (n faults : ℕ) (pos : List (Vec4 K)) :
    forLoop faults pos (fun pos fault => applyFault n (drawFault M fault) pos)
      = applyFaults n ((List.range faults).map (drawFault M)) pos := by
  simp only [forLoop, applyFaults, List.foldl_map]

end Faults

/-! ## Height normalisation -/

section Normalisation

variable {K : Type} [LinearOrderedField K]

theorem heightRange_eq (pos : List (Vec4 K)) :
    heightRange pos
      = ((heights pos).foldl minStep none, (heights pos).foldl maxStep none) := by
  have h : heightRange pos
      = pos.foldl (fun s p => (minStep s.1 p.2.1, maxStep s.2 p.2.1)) (none, none) := by
    unfold heightRange
    exact forLoop_getD pos 0 (none, none) (fun s p => (minStep s.1 p.2.1, maxStep s.2 p.2.1))
  have key : ∀ (l : List (Vec4 K)) (a b : Option K),
      l.foldl (fun s p => (minStep s.1 p.2.1, maxStep s.2 p.2.1)) (a, b)
        = ((heights l).foldl minStep a, (heights l).foldl maxStep b) := by
    intro l
    induction l with
    | nil => intro a b; rfl
    | cons p ps ih =>
      intro a b
      simp only [List.foldl_cons, heights, List.map_cons]
      exact ih _ _
  rw [h, key]

theorem foldl_minStep_some (l : List K) (a : K) :
    ∃ m, l.foldl minStep (some a) = some m ∧ (m = a ∨ m ∈ l) ∧ m ≤ a ∧ ∀ y ∈ l, m ≤ y := by
  induction l generalizing a with
  | nil => exact ⟨a, rfl, Or.inl rfl, le_refl a, by simp⟩
  | cons y ys ih =>
    simp only [List.foldl_cons, minStep]
    by_cases h : y < a
    · rw [if_pos h]
      obtain ⟨m, hm, hmem, hle, hall⟩ := ih y
      refine ⟨m, hm, ?_, le_trans hle (le_of_lt h), ?_⟩
      · rcases hmem with h1 | h1
        · exact Or.inr (h1 ▸ List.mem_cons_self _ _)
        · exact Or.inr (List.mem_cons_of_mem _ h1)
      · intro z hz
        rcases List.mem_cons.mp hz with h1 | h1
        · exact h1 ▸ hle
        · exact hall z h1
    · rw [if_neg h]
      obtain ⟨m, hm, hmem, hle, hall⟩ := ih a
      refine ⟨m, hm, ?_, hle, ?_⟩
      · rcases hmem with h1 | h1
        · exact Or.inl h1
        · exact Or.inr (List.mem_cons_of_mem _ h1)
      · intro z hz
        rcases List.mem_cons.mp hz with h1 | h1
        · exact h1 ▸ le_trans hle (not_lt.mp h)
        · exact hall z h1

theorem foldl_maxStep_some (l : List K) (a : K) :
    ∃ m, l.foldl maxStep (some a) = some m ∧ (m = a ∨ m ∈ l) ∧ a ≤ m ∧ ∀ y ∈ l, y ≤ m := by
  induction l generalizing a with
  | nil => exact ⟨a, rfl, Or.inl rfl, le_refl a, by simp⟩
  | cons y ys ih =>
    simp only [List.foldl_cons, maxStep]
    by_cases h : y > a
    · rw [if_pos h]
      obtain ⟨m, hm, hmem, hle, hall⟩ := ih y
      refine ⟨m, hm, ?_, le_trans (le_of_lt h) hle, ?_⟩
      · rcases hmem with h1 | h1
        · exact Or.inr (h1 ▸ List.mem_cons_self _ _)
        · exact Or.inr (List.mem_cons_of_mem _ h1)
      · intro z hz
        rcases List.mem_cons.mp hz with h1 | h1
        · exact h1 ▸ hle
        · exact hall z h1
    · rw [if_neg h]
      obtain ⟨m, hm, hmem, hle, hall⟩ := ih a
      refine ⟨m, hm, ?_, hle, ?_⟩
      · rcases hmem with h1 | h1
        · exact Or.inl h1
        · exact Or.inr (List.mem_cons_of_mem _ h1)
      · intro z hz
        rcases List.mem_cons.mp hz with h1 | h1
        · exact h1 ▸ le_trans (not_lt.mp h) hle
        · exact hall z h1

/-- On a non-empty list of positions the scan returns the least and the
greatest height. -/
theorem heightRange_spec (pos : List (Vec4 K)) (hne : pos ≠ []) :
    ∃ mn mx, heightRange pos = (some mn, some mx)
      ∧ IsMinOf (heights pos) mn ∧ IsMaxOf (heights pos) mx := by
  rw [heightRange_eq]
  cases pos with
  | nil => exact absurd rfl hne
  | cons p ps =>
    simp only [heights, List.map_cons, List.foldl_cons, minStep, maxStep]
    obtain ⟨mn, h1, h2, -, h4⟩ := foldl_minStep_some (ps.map fun p => p.2.1) p.2.1
    obtain ⟨mx, g1, g2, -, g4⟩ := foldl_maxStep_some (ps.map fun p => p.2.1) p.2.1
    refine ⟨mn, mx, by rw [h1, g1], ⟨List.mem_cons.mpr h2, ?_⟩, ⟨List.mem_cons.mpr g2, ?_⟩⟩
    · intro y hy
      rcases List.mem_cons.mp hy with h | h
      · rcases (foldl_minStep_some (ps.map fun p => p.2.1) p.2.1) with ⟨m', e1, -, e3, -⟩
        rw [h1] at e1
        rw [h, Option.some.inj e1]
        exact e3
      · exact h4 y h
    · intro y hy
      rcases List.mem_cons.mp hy with h | h
      · rcases (foldl_maxStep_some (ps.map fun p => p.2.1) p.2.1) with ⟨m', e1, -, e3, -⟩
        rw [g1] at e1
        rw [h, Option.some.inj e1]
        exact e3
      · exact g4 y h

theorem heightRange_nil : heightRange ([] : List (Vec4 K)) = (none, none) := rfl

theorem IsMinOf_unique {l : List K} {a b : K} (ha : IsMinOf l a) (hb : IsMinOf l b) : a = b :=
  le_antisymm (ha.2 b hb.1) (hb.2 a ha.1)

theorem IsMaxOf_unique {l : List K} {a b : K} (ha : IsMaxOf l a) (hb : IsMaxOf l b) : a = b :=
  le_antisymm (hb.2 a ha.1) (ha.2 b hb.1)

theorem normalizeHeights_eq (pos : List (Vec4 K)) (mn mx : K)
    (h : heightRange pos = (some mn, some mx)) :
    normalizeHeights pos = if mx ≠ mn then pos.map (rescale mn mx) else pos := by
  unfold normalizeHeights
  simp only [h]
  split
  · exact forLoop_pointwise_all pos 0 (rescale mn mx)
  · rfl

theorem normalizeHeights_length (pos : List (Vec4 K)) :
    (normalizeHeights pos).length = pos.length := by
  cases pos with
  | nil => rfl
  | cons p ps =>
    obtain ⟨mn, mx, h, -, -⟩ := heightRange_spec (p :: ps) (List.cons_ne_nil _ _)
    rw [normalizeHeights_eq _ mn mx h]
    split <;> simp

theorem normalizeHeights_xzw (pos : List (Vec4 K)) : xzw (normalizeHeights pos) = xzw pos := by
  cases pos with
  | nil => rfl
  | cons p ps =>
    obtain ⟨mn, mx, h, -, -⟩ := heightRange_spec (p :: ps) (List.cons_ne_nil _ _)
    rw [normalizeHeights_eq _ mn mx h]
    split
    · simp only [xzw, List.map_map]
      apply List.map_congr_left
      intro q _
      rfl
    · rfl

end Normalisation

/-! ## The positions and triangles of `makeTerrain` -/

section Terrain

variable {K : Type} [LinearOrderedField K]

theorem makeTerrain_positions (M : JSMath K) (n faults : ℕ) :
    (makeTerrain M n faults).positions = terrainPositions M n faults := rfl

theorem makeTerrain_triangles (M : JSMath K) (n faults : ℕ) :
    (makeTerrain M n faults).triangles = gridTriangles n := rfl

theorem applyFaults_length (n : ℕ) (fs : List (Fault K)) (pos : List (Vec4 K))
    (hlen : pos.length = n * n) : (applyFaults n fs pos).length = n * n := by
  rw [applyFaults_eq n fs pos hlen, List.length_map, hlen]

theorem applyFaults_xzw (n : ℕ) (fs : List (Fault K)) (pos : List (Vec4 K))
    (hlen : pos.length = n * n) : xzw (applyFaults n fs pos) = xzw pos := by
  rw [applyFaults_eq n fs pos hlen]
  simp only [xzw, List.map_map]
  apply List.map_congr_left
  intro q _
  rfl

theorem terrainPositions_length (M : JSMath K) (n faults : ℕ) :
    (terrainPositions M n faults).length = n * n := by
  unfold terrainPositions
  simp only []
  rw [normalizeHeights_length, faultLoop_eq,
    applyFaults_length n _ _ (gridPositions_length n)]

theorem terrainPositions_xzw (M : JSMath K) (n faults : ℕ) :
    xzw (terrainPositions M n faults) = xzw (gridPositions n : List (Vec4 K)) := by
  unfold terrainPositions
  simp only []
  rw [normalizeHeights_xzw, faultLoop_eq, applyFaults_xzw n _ _ (gridPositions_length n)]

omit [LinearOrderedField K] in
/-- Lists of positions with the same `x`, `z`, `w` agree on them at every index. -/
theorem getElem?_of_xzw_eq {p q : List (Vec4 K)} (h : xzw p = xzw q) (k : ℕ) (a : Vec4 K)
    (hq : q[k]? = some a) : ∃ y, p[k]? = some (a.1, y, a.2.2.1, a.2.2.2) := by
  have h1 : (xzw p)[k]? = (xzw q)[k]? := by rw [h]
  simp only [xzw, List.getElem?_map, hq, Option.map_some'] at h1
  cases hp : p[k]? with
  | none => rw [hp] at h1; simp at h1
  | some b =>
    rw [hp] at h1
    simp only [Option.map_some', Option.some.injEq, Prod.mk.injEq] at h1
    obtain ⟨h2, h3, h4⟩ := h1
    exact ⟨b.2.1, by rw [← h2, ← h3, ← h4]⟩

theorem gridPositions_getElem? (n i j : ℕ) (hi : i < n) (hj : j < n) :
    (gridPositions n : List (Vec4 K))[i * n + j]? = some (gridPoint n i j) := by
  rw [gridPositions_eq, List.getElem?_map, List.getElem?_range (rowMajor_lt hi hj)]
  simp [(div_mod_rowMajor hj).1, (div_mod_rowMajor hj).2]

/-- The grid step is positive and `(gridsize - 1) * step = 2` once `gridsize ≥ 2`. -/
theorem step_facts (n : ℕ) (h : 2 ≤ n) :
    (0 : K) < 2 / ((n : K) - 1) ∧ ((n : K) - 1) * (2 / ((n : K) - 1)) = 2 := by
  have h1 : (2 : K) ≤ (n : K) := by exact_mod_cast h
  have h2 : (0 : K) < (n : K) - 1 := by linarith
  exact ⟨div_pos (by norm_num) h2, mul_div_cancel₀ _ (ne_of_gt h2)⟩

theorem gridCoord_bounds (n k : ℕ) (h : 2 ≤ n) (hk : k < n) :
    (-1 : K) ≤ -1 + (k : K) * (2 / ((n : K) - 1)) ∧ -1 + (k : K) * (2 / ((n : K) - 1)) ≤ 1 := by
  obtain ⟨hpos, hmul⟩ := step_facts (K := K) n h
  have hk0 : (0 : K) ≤ (k : K) := Nat.cast_nonneg k
  have hk1 : (k : K) ≤ (n : K) - 1 := by
    have : k + 1 ≤ n := hk
    have h3 : ((k + 1 : ℕ) : K) ≤ (n : K) := by exact_mod_cast this
    push_cast at h3
    linarith
  constructor
  · have := mul_nonneg hk0 (le_of_lt hpos)
    linarith
  · have := mul_le_mul_of_nonneg_right hk1 (le_of_lt hpos)
    linarith

theorem gridPositions_flat (n : ℕ) : ∀ p ∈ (gridPositions n : List (Vec4 K)), p.2.1 = 0 := by
  intro p hp
  rw [gridPositions_eq, List.mem_map] at hp
  obtain ⟨k, -, hk⟩ := hp
  rw [← hk]; rfl

/-- On the flat grid the scan finds `minY = maxY = 0` and the normalisation is skipped. -/
theorem heightRange_gridPositions (n : ℕ) (h : 1 ≤ n) :
    heightRange (gridPositions n : List (Vec4 K)) = (some 0, some 0)
      ∧ normalizeHeights (gridPositions n : List (Vec4 K)) = gridPositions n := by
  have hne : (gridPositions n : List (Vec4 K)) ≠ [] := by
    intro h0
    have h1 := gridPositions_length (K := K) n
    rw [h0] at h1
    have : 0 < n * n := Nat.mul_pos (by omega) (by omega)
    simp at h1
    omega
  obtain ⟨mn, mx, hr, hmin, hmax⟩ := heightRange_spec _ hne
  have hmn : mn = 0 := by
    obtain ⟨p, hp, hpe⟩ := List.mem_map.mp hmin.1
    rw [← hpe]; exact gridPositions_flat n p hp
  have hmx : mx = 0 := by
    obtain ⟨p, hp, hpe⟩ := List.mem_map.mp hmax.1
    rw [← hpe]; exact gridPositions_flat n p hp
  subst hmn hmx
  refine ⟨hr, ?_⟩
  rw [normalizeHeights_eq _ 0 0 hr]; simp

theorem terrainPositions_zero (M : JSMath K) (n : ℕ) (h : 1 ≤ n) :
    terrainPositions M n 0 = gridPositions n := by
  unfold terrainPositions
  simp only [forLoop_zero]
  exact (heightRange_gridPositions n h).2

end Terrain

/-! ## Normals -/

section Normals

variable {K : Type} [LinearOrderedField K]

theorem initNormals_eq (geom : Geometry K) :
    initNormals geom = geom.normals ++ List.replicate geom.positions.length (0, 0, 0) := by
  unfold initNormals
  rw [forLoop_push geom.positions.length geom.normals (fun _ => ((0, 0, 0) : Vec3 K))]
  congr 1
  apply List.ext_getElem
  · simp
  · intro i h1 h2
    simp

theorem accumulateNormals_eq (geom : Geometry K) (ns : List (Vec3 K)) :
    accumulateNormals geom ns = geom.triangles.foldl (accumulateStep geom.positions) ns := by
  unfold accumulateNormals
  exact forLoop_getD geom.triangles (0, 0, 0) ns (accumulateStep geom.positions)

theorem accumulateStep_length (pos : List (Vec4 K)) (ns : List (Vec3 K)) (t : Triangle) :
    (accumulateStep pos ns t).length = ns.length := by
  simp [accumulateStep]

theorem foldl_accumulateStep_length (pos : List (Vec4 K)) (tris : List Triangle)
    (ns : List (Vec3 K)) : (tris.foldl (accumulateStep pos) ns).length = ns.length := by
  induction tris generalizing ns with
  | nil => rfl
  | cons t ts ih => rw [List.foldl_cons, ih, accumulateStep_length]

/-- Reading index `v` after `l[a] = add(l[a], n)`. -/
theorem getD_set_add_y (l : List (Vec3 K)) (a v : ℕ) (n : Vec3 K) (ha : a < l.length) :
    ((l.set a (add (l.getD a 0) n)).getD v 0).2.1
      = (l.getD v 0).2.1 + (if a = v then n.2.1 else 0) := by
  simp only [List.getD_eq_getElem?_getD, List.getElem?_set]
  by_cases h : a = v
  · subst h
    simp [ha, add]
  · simp [h]

theorem accumulateStep_y (pos : List (Vec4 K)) (ns : List (Vec3 K)) (t : Triangle) (v : ℕ)
    (h1 : t.1 < ns.length) (h2 : t.2.1 < ns.length) (h3 : t.2.2 < ns.length) :
    ((accumulateStep pos ns t).getD v 0).2.1
      = (ns.getD v 0).2.1
        + (((if t.1 = v then 1 else 0) + (if t.2.1 = v then 1 else 0)
            + (if t.2.2 = v then 1 else 0) : ℕ) : K) * (faceNormal pos t).2.1 := by
  simp only [accumulateStep]
  rw [getD_set_add_y _ _ _ _ (by simpa using h3), getD_set_add_y _ _ _ _ (by simpa using h2),
    getD_set_add_y _ _ _ _ h1]
  push_cast
  split_ifs <;> ring

theorem foldl_accumulateStep_y (pos : List (Vec4 K)) (c : K) (tris : List Triangle)
    (ns : List (Vec3 K)) (v : ℕ)
    (hidx : ∀ t ∈ tris, t.1 < ns.length ∧ t.2.1 < ns.length ∧ t.2.2 < ns.length)
    (hface : ∀ t ∈ tris, (faceNormal pos t).2.1 = c) :
    ((tris.foldl (accumulateStep pos) ns).getD v 0).2.1
      = (ns.getD v 0).2.1 + (cornerCount tris v : K) * c := by
  induction tris generalizing ns with
  | nil => simp [cornerCount]
  | cons t ts ih =>
    obtain ⟨h1, h2, h3⟩ := hidx t (List.mem_cons_self _ _)
    rw [List.foldl_cons, ih (accumulateStep pos ns t)
        (fun u hu => by
          rw [accumulateStep_length]
          exact hidx u (List.mem_cons_of_mem _ hu))
        (fun u hu => hface u (List.mem_cons_of_mem _ hu)),
      accumulateStep_y pos ns t v h1 h2 h3, hface t (List.mem_cons_self _ _)]
    simp only [cornerCount, List.map_cons, List.sum_cons]
    push_cast
    ring

theorem cornerCount_pos (tris : List Triangle) (v : ℕ) (t : Triangle) (ht : t ∈ tris)
    (hv : t.1 = v ∨ t.2.1 = v ∨ t.2.2 = v) : 0 < cornerCount tris v := by
  induction tris with
  | nil => simp at ht
  | cons u us ih =>
    simp only [cornerCount, List.map_cons, List.sum_cons]
    rcases List.mem_cons.mp ht with h | h
    · subst h
      rcases hv with h | h | h <;> simp [h]
    · have := ih h
      simp only [cornerCount] at this
      omega

/-- Every vertex of the grid is a corner of some triangle. -/
theorem exists_triangle_of_vertex (n v : ℕ) (h : 2 ≤ n) (hv : v < n * n) :
    ∃ t ∈ gridTriangles n, t.1 = v ∨ t.2.1 = v ∨ t.2.2 = v := by
  have hn : 0 < n := by omega
  have hi : v / n < n := Nat.div_lt_of_lt_mul hv
  have hj : v % n < n := Nat.mod_lt _ hn
  have hv' : v / n * n + v % n = v := Nat.div_add_mod' v n
  generalize v / n = i at hi hv'
  generalize v % n = j at hj hv'
  by_cases hi' : i < n - 1
  · by_cases hj' : j < n - 1
    · exact ⟨firstTriangle n i j, (mem_gridTriangles n _).mpr ⟨i, j, hi', hj', Or.inl rfl⟩,
        Or.inl hv'⟩
    · refine ⟨firstTriangle n i (j - 1),
        (mem_gridTriangles n _).mpr ⟨i, j - 1, hi', by omega, Or.inl rfl⟩, Or.inr (Or.inl ?_)⟩
      simp only [firstTriangle]
      omega
  · have hi1 : i - 1 + 1 = i := by omega
    by_cases hj' : j < n - 1
    · refine ⟨firstTriangle n (i - 1) j,
        (mem_gridTriangles n _).mpr ⟨i - 1, j, by omega, hj', Or.inl rfl⟩, Or.inr (Or.inr ?_)⟩
      simp only [firstTriangle, hi1]
      exact hv'
    · refine ⟨secondTriangle n (i - 1) (j - 1),
        (mem_gridTriangles n _).mpr ⟨i - 1, j - 1, by omega, by omega, Or.inr rfl⟩,
        Or.inr (Or.inl ?_)⟩
      simp only [secondTriangle, hi1]
      omega

omit [LinearOrderedField K] in
theorem getD_of_xzw_eq [Zero K] {p q : List (Vec4 K)} (h : xzw p = xzw q) (k : ℕ) (a : Vec4 K)
    (hq : q[k]? = some a) :
    (p.getD k 0).1 = a.1 ∧ (p.getD k 0).2.2.1 = a.2.2.1 ∧ (p.getD k 0).2.2.2 = a.2.2.2 := by
  obtain ⟨y, hy⟩ := getElem?_of_xzw_eq h k a hq
  rw [List.getD_eq_getElem?_getD, hy]
  exact ⟨rfl, rfl, rfl⟩

/-- The `x` and `z` of a vertex of any height field over the grid. -/
theorem grid_xz (n : ℕ) (pos : List (Vec4 K)) (hpos : xzw pos = xzw (gridPositions n))
    (i j : ℕ) (hi : i < n) (hj : j < n) :
    (pos.getD (i * n + j) 0).1 = -1 + (j : K) * (2 / ((n : K) - 1))
      ∧ (pos.getD (i * n + j) 0).2.2.1 = -1 + (i : K) * (2 / ((n : K) - 1)) := by
  obtain ⟨h1, h2, -⟩ := getD_of_xzw_eq hpos (i * n + j) _ (gridPositions_getElem? n i j hi hj)
  exact ⟨h1, h2⟩

/-- The flipped face normal of either triangle of a cell has `y = step²`. -/
theorem faceNormal_y (n : ℕ) (pos : List (Vec4 K)) (hpos : xzw pos = xzw (gridPositions n))
    (t : Triangle) (ht : t ∈ gridTriangles n) :
    (faceNormal pos t).2.1 = (2 / ((n : K) - 1)) * (2 / ((n : K) - 1)) := by
  obtain ⟨i, j, hi, hj, h⟩ := (mem_gridTriangles n t).mp ht
  have hA := grid_xz n pos hpos i j (by omega) (by omega)
  have hB := grid_xz n pos hpos i (j + 1) (by omega) (by omega)
  have hC := grid_xz n pos hpos (i + 1) j (by omega) (by omega)
  have hD := grid_xz n pos hpos (i + 1) (j + 1) (by omega) (by omega)
  rw [← Nat.add_assoc] at hB hD
  rcases h with h | h
  · subst h
    simp only [faceNormal, firstTriangle, sub, cross, mul, hA.1, hA.2, hB.1, hB.2, hC.1, hC.2]
    push_cast
    ring
  · subst h
    simp only [faceNormal, secondTriangle, sub, cross, mul, hB.1, hB.2, hC.1, hC.2, hD.1, hD.2]
    push_cast
    ring

/-- The accumulated `y` of a vertex is the number of its triangle corners times `step²`. -/
theorem accumulated_y (n : ℕ) (pos : List (Vec4 K)) (hpos : xzw pos = xzw (gridPositions n))
    (v : ℕ) :
    ((accumulateNormals ⟨gridTriangles n, pos, []⟩ (initNormals ⟨gridTriangles n, pos, []⟩)).getD
        v 0).2.1
      = (cornerCount (gridTriangles n) v : K) * ((2 / ((n : K) - 1)) * (2 / ((n : K) - 1))) := by
  have hlen : pos.length = n * n := by
    have h1 : (xzw pos).length = (xzw (gridPositions n : List (Vec4 K))).length := by rw [hpos]
    simpa [xzw, gridPositions_length] using h1
  rw [accumulateNormals_eq, initNormals_eq]
  simp only [List.nil_append]
  rw [foldl_accumulateStep_y pos _ (gridTriangles n) _ v
    (fun t ht => by
      rw [List.length_replicate, hlen]
      exact gridTriangles_index_lt n t ht)
    (fun t ht => faceNormal_y n pos hpos t ht)]
  have h0 : ((List.replicate pos.length ((0, 0, 0) : Vec3 K)).getD v 0).2.1 = 0 := by
    rw [List.getD_eq_getElem?_getD]
    by_cases hv : v < pos.length
    · rw [List.getElem?_eq_getElem (by simpa using hv)]
      simp
    · rw [List.getElem?_eq_none (by simpa using hv)]
      rfl
  rw [h0, zero_add]

theorem addNormals_normals (M : JSMath K) (tris : List Triangle) (pos : List (Vec4 K)) :
    (addNormals M ⟨tris, pos, []⟩).normals
      = (accumulateNormals ⟨tris, pos, []⟩ (initNormals ⟨tris, pos, []⟩)).map (normalize M) := by
  have hlen : (accumulateNormals ⟨tris, pos, []⟩ (initNormals ⟨tris, pos, []⟩)).length
      = pos.length := by
    rw [accumulateNormals_eq, foldl_accumulateStep_length, initNormals_eq]
    simp
  simp only [addNormals]
  rw [← forLoop_pointwise_all _ 0 (normalize M), hlen]

theorem addNormals_normals_length (M : JSMath K) (tris : List Triangle) (pos : List (Vec4 K)) :
    (addNormals M ⟨tris, pos, []⟩).normals.length = pos.length := by
  rw [addNormals_normals, List.length_map, accumulateNormals_eq, foldl_accumulateStep_length,
    initNormals_eq]
  simp

/-- A vector with a non-zero `y` is normalised to unit length. -/
theorem normSq_normalize (M : JSMath K) (hs : IsSqrt M.sqrt) (a : Vec3 K) (hy : a.2.1 ≠ 0) :
    0 < normSq a ∧ M.sqrt (normSq a) ≠ 0 ∧ normSq (normalize M a) = 1 := by
  have hpos : 0 < normSq a := by
    have h1 : 0 < a.2.1 * a.2.1 := mul_self_pos.mpr hy
    have h2 : 0 ≤ a.1 * a.1 := mul_self_nonneg _
    have h3 : 0 ≤ a.2.2 * a.2.2 := mul_self_nonneg _
    simp only [normSq]
    linarith
  obtain ⟨-, hsq⟩ := hs (normSq a) (le_of_lt hpos)
  have hne : M.sqrt (normSq a) ≠ 0 := by
    intro h0
    rw [h0, mul_zero] at hsq
    exact (ne_of_gt hpos) hsq.symm
  refine ⟨hpos, hne, ?_⟩
  have e : normSq (normalize M a)
      = normSq a / (M.sqrt (normSq a) * M.sqrt (normSq a)) := by
    simp only [normalize, normSq]
    field_simp
  rw [e, hsq, div_self (ne_of_gt hpos)]

theorem sqrt_one_of_isSqrt (M : JSMath K) (hs : IsSqrt M.sqrt) : M.sqrt 1 = 1 := by
  obtain ⟨h0, h1⟩ := hs 1 zero_le_one
  have h2 : (M.sqrt 1 - 1) * (M.sqrt 1 + 1) = 0 := by linear_combination h1
  rcases mul_eq_zero.mp h2 with h | h
  · linarith
  · linarith

theorem sqrt_mul_self_of_isSqrt (M : JSMath K) (hs : IsSqrt M.sqrt) (a : K) (ha : 0 ≤ a) :
    M.sqrt (a * a) = a := by
  obtain ⟨h0, h1⟩ := hs (a * a) (mul_self_nonneg a)
  have h2 : (M.sqrt (a * a) - a) * (M.sqrt (a * a) + a) = 0 := by linear_combination h1
  rcases mul_eq_zero.mp h2 with h | h
  · linarith
  · linarith

theorem gridPositions_two :
    (gridPositions 2 : List (Vec4 K))
      = [(-1, 0, -1, 1), (1, 0, -1, 1), (-1, 0, 1, 1), (1, 0, 1, 1)] := by
  rw [gridPositions_eq]
  simp only [gridPoint]
  norm_num [List.range_succ]

theorem gridTriangles_two : gridTriangles 2 = [(0, 1, 2), (1, 3, 2)] := by decide

theorem normalSums_two :
    normalSums (gridTriangles 2) (gridPositions 2 : List (Vec4 K))
      = [(0, 4, 0), (0, 8, 0), (0, 8, 0), (0, 4, 0)] := by
  simp only [normalSums]
  rw [accumulateNormals_eq, initNormals_eq]
  simp only [gridTriangles_two, gridPositions_two]
  simp [accumulateStep, faceNormal, sub, cross, mul, add]
  norm_num

/-- With `gridsize = 1` the loops still run: one position, one normal, no triangle. -/
theorem terrain_of_gridsize_one (M : JSMath K) (faults : ℕ) :
    (makeTerrain M 1 faults).positions.length = 1
      ∧ (makeTerrain M 1 faults).normals.length = 1
      ∧ (makeTerrain M 1 faults).triangles = [] := by
  refine ⟨terrainPositions_length M 1 faults, ?_, rfl⟩
  have h : (makeTerrain M 1 faults).normals
      = (addNormals M ⟨gridTriangles 1, terrainPositions M 1 faults, []⟩).normals := rfl
  rw [h, addNormals_normals_length, terrainPositions_length]

theorem indexBuffer_of_gridsize_one (M : JSMath K) (faults : ℕ) :
    generateTerrain M 1 faults = ⟨[], 0⟩ := by
  simp only [generateTerrain, setupGeomery, makeTerrain_triangles]
  rfl

/-- The facts about one vertex normal of a height field over the grid. -/
theorem unit_normal_at (M : JSMath K) (hs : IsSqrt M.sqrt) (n : ℕ) (h : 2 ≤ n)
    (pos : List (Vec4 K)) (hpos : xzw pos = xzw (gridPositions n)) (v : ℕ) (hv : v < n * n) :
    (0 < cornerCount (gridTriangles n) v)
      ∧ ((normalSums (gridTriangles n) pos).getD v 0).2.1
          = (cornerCount (gridTriangles n) v : K) * (2 / ((n : K) - 1)) ^ 2
      ∧ ((normalSums (gridTriangles n) pos).getD v 0).2.1 ≠ 0
      ∧ M.sqrt (normSq ((normalSums (gridTriangles n) pos).getD v 0)) ≠ 0
      ∧ (addNormals M ⟨gridTriangles n, pos, []⟩).normals[v]?
          = some (normalize M ((normalSums (gridTriangles n) pos).getD v 0))
      ∧ normSq (normalize M ((normalSums (gridTriangles n) pos).getD v 0)) = 1 := by
  obtain ⟨t, ht, htv⟩ := exists_triangle_of_vertex n v h hv
  have hcc := cornerCount_pos (gridTriangles n) v t ht htv
  have hy : ((normalSums (gridTriangles n) pos).getD v 0).2.1
      = (cornerCount (gridTriangles n) v : K) * (2 / ((n : K) - 1)) ^ 2 := by
    rw [sq]; exact accumulated_y n pos hpos v
  have hne : ((normalSums (gridTriangles n) pos).getD v 0).2.1 ≠ 0 := by
    rw [hy]
    have h1 : (0 : K) < (cornerCount (gridTriangles n) v : K) := by exact_mod_cast hcc
    exact ne_of_gt (mul_pos h1 (pow_pos (step_facts n h).1 2))
  obtain ⟨-, hmag, hunit⟩ := normSq_normalize M hs _ hne
  have hlen : pos.length = n * n := by
    have h1 : (xzw pos).length = (xzw (gridPositions n : List (Vec4 K))).length := by rw [hpos]
    simpa [xzw, gridPositions_length] using h1
  have hvl : v < (normalSums (gridTriangles n) pos).length := by
    simp only [normalSums]
    rw [accumulateNormals_eq, foldl_accumulateStep_length, initNormals_eq]
    simpa [hlen] using hv
  refine ⟨hcc, hy, hne, hmag, ?_, hunit⟩
  rw [addNormals_normals, List.getElem?_map]
  change Option.map (normalize M) ((normalSums (gridTriangles n) pos)[v]?) = _
  rw [List.getD_eq_getElem?_getD, List.getElem?_eq_getElem hvl]
  rfl

end Normals

/-! ## The index buffer -/

section Indices

/-- The flattened index list `geom.triangles.flat()`. -/
theorem length_flat (l : List Triangle) :
    (l.flatMap fun t => [t.1, t.2.1, t.2.2]).length = 3 * l.length := by
  induction l with
  | nil => rfl
  | cons a l ih => rw [List.flatMap_cons, List.length_append, ih]; simp; omega

theorem getElem?_flat (l : List Triangle) (k : ℕ) (t : Triangle) (h : l[k]? = some t) :
    (l.flatMap fun t => [t.1, t.2.1, t.2.2])[3 * k]? = some t.1
      ∧ (l.flatMap fun t => [t.1, t.2.1, t.2.2])[3 * k + 1]? = some t.2.1
      ∧ (l.flatMap fun t => [t.1, t.2.1, t.2.2])[3 * k + 2]? = some t.2.2 := by
  induction l generalizing k with
  | nil => simp at h
  | cons a l ih =>
    rw [List.flatMap_cons]
    cases k with
    | zero =>
      simp only [List.getElem?_cons_zero, Option.some.injEq] at h
      subst h
      simp
    | succ k =>
      simp only [List.getElem?_cons_succ] at h
      obtain ⟨h0, h1, h2⟩ := ih k h
      have e0 : 3 * (k + 1) = 3 * k + 3 := by omega
      have e1 : 3 * (k + 1) + 1 = 3 * k + 1 + 3 := by omega
      have e2 : 3 * (k + 1) + 2 = 3 * k + 2 + 3 := by omega
      have hl : ([a.1, a.2.1, a.2.2] : List ℕ).length = 3 := rfl
      refine ⟨?_, ?_, ?_⟩
      · rw [e0, List.getElem?_append_right (by rw [hl]; omega), hl, Nat.add_sub_cancel]
        exact h0
      · rw [e1, List.getElem?_append_right (by rw [hl]; omega), hl, Nat.add_sub_cancel]
        exact h1
      · rw [e2, List.getElem?_append_right (by rw [hl]; omega), hl, Nat.add_sub_cancel]
        exact h2

theorem map_eq_self_iff {α : Type} (f : α → α) (l : List α) :
    l.map f = l ↔ ∀ x ∈ l, f x = x := by
  induction l with
  | nil => simp
  | cons a l ih => simp [ih]

/-- The largest vertex index `gridsize² - 1` occurs in the triangle list. -/
theorem last_vertex_mem_flat (n : ℕ) (h : 2 ≤ n) :
    n * n - 1 ∈ (gridTriangles n).flatMap fun t => [t.1, t.2.1, t.2.2] := by
  rw [List.mem_flatMap]
  refine ⟨secondTriangle n (n - 2) (n - 2), ?_, ?_⟩
  · exact (mem_gridTriangles n _).mpr ⟨n - 2, n - 2, by omega, by omega, Or.inr rfl⟩
  · have e : (n - 2 + 1) * n + (n - 2) + 1 = n * n - 1 := by
      have h1 : n - 2 + 1 = n - 1 := by omega
      rw [h1]
      have h2 : (n - 1) * n + n = n * n := by
        rw [← Nat.succ_mul]
        congr 1
        omega
      omega
    simp only [secondTriangle, e]
    simp

end Indices

/-! ## Theorems -/

section Claims

variable {K : Type} [LinearOrderedField K]

/-- C1: for `gridsize ≥ 2`, any fault count and any random draws, `makeTerrain`
returns exactly `gridsize²` positions and exactly `2*(gridsize-1)²` triangles
(the latter also as an identity of integers, where the subtraction is exact). -/
theorem makeTerrain_counts (M : JSMath K) (gridsize faults : ℕ) (h : 2 ≤ gridsize) :
    (makeTerrain M gridsize faults).positions.length = gridsize ^ 2
      ∧ (makeTerrain M gridsize faults).triangles.length = 2 * (gridsize - 1) ^ 2
      ∧ ((makeTerrain M gridsize faults).triangles.length : ℤ) = 2 * ((gridsize : ℤ) - 1) ^ 2 := by
  rw [makeTerrain_positions, makeTerrain_triangles, terrainPositions_length,
    gridTriangles_length]
  refine ⟨(sq gridsize).symm, by rw [sq], ?_⟩
  have h1 : ((gridsize - 1 : ℕ) : ℤ) = (gridsize : ℤ) - 1 := by omega
  rw [← h1]
  push_cast
  ring

/-- Witness of C1 at `gridsize = 3`, two faults, on the rational sample. -/
theorem makeTerrain_counts_witness :
    2 ≤ 3 ∧ (makeTerrain sampleMath 3 2).positions.length = 3 ^ 2
      ∧ (makeTerrain sampleMath 3 2).triangles.length = 2 * (3 - 1) ^ 2
      ∧ ((makeTerrain sampleMath 3 2).triangles.length : ℤ) = 2 * (((3 : ℕ) : ℤ) - 1) ^ 2 :=
  ⟨by decide, makeTerrain_counts sampleMath 3 2 (by decide)⟩

/-- C3: for `gridsize ≥ 2`, any fault count and any row `i` and column `j` below
`gridsize`, the position at index `i*gridsize + j` has `x = -1 + j*2/(gridsize-1)`,
`z = -1 + i*2/(gridsize-1)` and `w = 1`; `x` and `z` lie in `[-1, 1]`; the last
column and the last row land exactly on `1`; and the `x`, `z`, `w` of all
positions are those of the flat grid, which neither a fault nor the
normalisation changes. -/
theorem makeTerrain_grid_coordinates (M : JSMath K) (gridsize faults i j : ℕ)
    (h : 2 ≤ gridsize) (hi : i < gridsize) (hj : j < gridsize) :
    (∃ y, (makeTerrain M gridsize faults).positions[i * gridsize + j]?
        = some (-1 + (j : K) * 2 / ((gridsize : K) - 1), y,
            -1 + (i : K) * 2 / ((gridsize : K) - 1), 1))
      ∧ (-1 ≤ -1 + (j : K) * 2 / ((gridsize : K) - 1)
          ∧ -1 + (j : K) * 2 / ((gridsize : K) - 1) ≤ 1)
      ∧ (-1 ≤ -1 + (i : K) * 2 / ((gridsize : K) - 1)
          ∧ -1 + (i : K) * 2 / ((gridsize : K) - 1) ≤ 1)
      ∧ (j = gridsize - 1 → -1 + (j : K) * 2 / ((gridsize : K) - 1) = 1)
      ∧ (i = gridsize - 1 → -1 + (i : K) * 2 / ((gridsize : K) - 1) = 1)
      ∧ xzw (makeTerrain M gridsize faults).positions = xzw (gridPositions gridsize : List (Vec4 K))
      ∧ (∀ (f : Fault K) (pos : List (Vec4 K)), pos.length = gridsize * gridsize →
          xzw (applyFault gridsize f pos) = xzw pos)
      ∧ (∀ pos : List (Vec4 K), xzw (normalizeHeights pos) = xzw pos) := by
  have hx := gridCoord_bounds (K := K) gridsize j h hj
  have hz := gridCoord_bounds (K := K) gridsize i h hi
  obtain ⟨-, hmul⟩ := step_facts (K := K) gridsize h
  have hlast : ∀ k : ℕ, k = gridsize - 1 → -1 + (k : K) * 2 / ((gridsize : K) - 1) = 1 := by
    intro k hk
    have hc : (k : K) = (gridsize : K) - 1 := by
      rw [hk, Nat.cast_sub (by omega : 1 ≤ gridsize)]; simp
    rw [mul_div_assoc, hc, hmul]; norm_num
  simp only [mul_div_assoc]
  refine ⟨?_, hx, hz, ?_, ?_, terrainPositions_xzw M gridsize faults, ?_,
    normalizeHeights_xzw⟩
  · obtain ⟨y, hy⟩ := getElem?_of_xzw_eq (terrainPositions_xzw M gridsize faults)
      (i * gridsize + j) _ (gridPositions_getElem? gridsize i j hi hj)
    exact ⟨y, hy⟩
  · intro hk; have := hlast j hk; rwa [mul_div_assoc] at this
  · intro hk; have := hlast i hk; rwa [mul_div_assoc] at this
  · intro f pos hlen
    have := applyFaults_xzw gridsize [f] pos hlen
    simpa [applyFaults] using this

/-- Witness of C3 at `gridsize = 3`, two faults, row 1 and column 2. -/
theorem makeTerrain_grid_coordinates_witness :
    2 ≤ 3 ∧ 1 < 3 ∧ 2 < 3
      ∧ (∃ y, (makeTerrain sampleMath 3 2).positions[1 * 3 + 2]?
        = some (-1 + ((2 : ℕ) : ℚ) * 2 / (((3 : ℕ) : ℚ) - 1), y,
            -1 + ((1 : ℕ) : ℚ) * 2 / (((3 : ℕ) : ℚ) - 1), 1)) :=
  ⟨by decide, by decide, by decide,
    (makeTerrain_grid_coordinates sampleMath 3 2 1 2 (by decide) (by decide) (by decide)).1⟩

/-- C7: for `gridsize ≥ 2` and every cell `(i, j)` with `i, j < gridsize - 1`, the
triangle list of `makeTerrain` holds at index `2*(i*(gridsize-1)+j)` the triangle
`(i*gridsize+j, i*gridsize+j+1, (i+1)*gridsize+j)` and at the next index the
triangle `(i*gridsize+j+1, (i+1)*gridsize+j+1, (i+1)*gridsize+j)`; the list has
`2*(gridsize-1)²` entries, every entry is one of the two triangles of some cell,
and every index in it is below `gridsize²`. The list starts with the two
triangles `(0, 1, gridsize)` and `(1, gridsize+1, gridsize)` of cell `(0, 0)`. -/
theorem makeTerrain_triangle_layout (M : JSMath K) (gridsize faults : ℕ) (h : 2 ≤ gridsize) :
    (∀ i j, i < gridsize - 1 → j < gridsize - 1 →
        (makeTerrain M gridsize faults).triangles[2 * (i * (gridsize - 1) + j)]?
            = some (i * gridsize + j, i * gridsize + j + 1, (i + 1) * gridsize + j)
          ∧ (makeTerrain M gridsize faults).triangles[2 * (i * (gridsize - 1) + j) + 1]?
            = some (i * gridsize + j + 1, (i + 1) * gridsize + j + 1, (i + 1) * gridsize + j))
      ∧ (makeTerrain M gridsize faults).triangles.length = 2 * (gridsize - 1) ^ 2
      ∧ (∀ t ∈ (makeTerrain M gridsize faults).triangles, ∃ a b, a < gridsize - 1 ∧ b < gridsize - 1
          ∧ (t = (a * gridsize + b, a * gridsize + b + 1, (a + 1) * gridsize + b)
            ∨ t = (a * gridsize + b + 1, (a + 1) * gridsize + b + 1, (a + 1) * gridsize + b)))
      ∧ (∀ t ∈ (makeTerrain M gridsize faults).triangles,
          t.1 < gridsize ^ 2 ∧ t.2.1 < gridsize ^ 2 ∧ t.2.2 < gridsize ^ 2)
      ∧ (makeTerrain M gridsize faults).triangles[0]? = some (0, 1, gridsize)
      ∧ (makeTerrain M gridsize faults).triangles[1]? = some (1, gridsize + 1, gridsize) := by
  rw [makeTerrain_triangles]
  have h0 := gridTriangles_getElem? gridsize 0 0 (by omega) (by omega)
  simp only [firstTriangle, secondTriangle, Nat.zero_mul, Nat.zero_add, Nat.mul_zero,
    Nat.add_zero, Nat.one_mul] at h0
  refine ⟨fun i j hi hj => gridTriangles_getElem? gridsize i j hi hj, ?_, ?_, ?_, h0.1, h0.2⟩
  · rw [gridTriangles_length, sq]
  · intro t ht
    exact (mem_gridTriangles gridsize t).mp ht
  · intro t ht
    rw [sq]
    exact gridTriangles_index_lt gridsize t ht

/-- Witness of C7 at `gridsize = 4`, cell `(1, 2)`. -/
theorem makeTerrain_triangle_layout_witness :
    2 ≤ 4 ∧ (makeTerrain sampleMath 4 0).triangles[2 * (1 * (4 - 1) + 2)]?
        = some (1 * 4 + 2, 1 * 4 + 2 + 1, (1 + 1) * 4 + 2) :=
  ⟨by decide,
    ((makeTerrain_triangle_layout sampleMath 4 0 (by decide)).1 1 2 (by decide) (by decide)).1⟩

/-- C8: for `gridsize ≥ 2`, `makeTerrain(gridsize, 0)` returns the flat grid: the
fault loop runs zero times, the scan finds `minY = maxY = 0`, the normalisation
is skipped, and every position has `y = 0`. -/
theorem makeTerrain_no_faults_flat (M : JSMath K) (gridsize : ℕ) (h : 2 ≤ gridsize) :
    (∀ p ∈ (makeTerrain M gridsize 0).positions, p.2.1 = 0)
      ∧ forLoop 0 (gridPositions gridsize : List (Vec4 K))
          (fun pos fault => applyFault gridsize (drawFault M fault) pos) = gridPositions gridsize
      ∧ heightRange (gridPositions gridsize : List (Vec4 K)) = (some 0, some 0)
      ∧ normalizeHeights (gridPositions gridsize : List (Vec4 K)) = gridPositions gridsize
      ∧ (makeTerrain M gridsize 0).positions = gridPositions gridsize := by
  obtain ⟨hr, hnorm⟩ := heightRange_gridPositions (K := K) gridsize (by omega)
  have hpos : (makeTerrain M gridsize 0).positions = gridPositions gridsize :=
    terrainPositions_zero M gridsize (by omega)
  refine ⟨?_, rfl, hr, hnorm, hpos⟩
  rw [hpos]
  exact gridPositions_flat gridsize

/-- Witness of C8 at `gridsize = 3`. -/
theorem makeTerrain_no_faults_flat_witness :
    2 ≤ 3 ∧ ∀ p ∈ (makeTerrain sampleMath 3 0).positions, p.2.1 = 0 :=
  ⟨by decide, (makeTerrain_no_faults_flat sampleMath 3 (by decide)).1⟩

/-- C4: for a height field with least height `minY` and greatest height `maxY`
(hence non-empty), the scan of `makeTerrain` finds exactly these two; when
`maxY ≠ minY` the normalisation replaces every height `y` by
`1*(y - 0.5*(maxY+minY))/(maxY-minY)`, the new greatest height is `1/2`, the new
least height is `-1/2` (so `max = -min` and `max - min = 1`) and every new height
lies in `[-1/2, 1/2]`; when `maxY = minY` the positions are returned unchanged. -/
theorem normalizeHeights_range (pos : List (Vec4 K)) (minY maxY : K)
    (hmin : IsMinOf (heights pos) minY) (hmax : IsMaxOf (heights pos) maxY) :
    heightRange pos = (some minY, some maxY)
      ∧ (maxY ≠ minY →
          heights (normalizeHeights pos)
              = (heights pos).map (fun y => 1 * (y - (1 / 2) * (maxY + minY)) / (maxY - minY))
            ∧ IsMaxOf (heights (normalizeHeights pos)) (1 / 2)
            ∧ IsMinOf (heights (normalizeHeights pos)) (-(1 / 2))
            ∧ (∀ y ∈ heights (normalizeHeights pos), -(1 / 2) ≤ y ∧ y ≤ 1 / 2)
            ∧ (∀ a b, IsMaxOf (heights (normalizeHeights pos)) a →
                IsMinOf (heights (normalizeHeights pos)) b → a = -b ∧ a - b = 1))
      ∧ (maxY = minY → normalizeHeights pos = pos) := by
  have hne : pos ≠ [] := by
    intro h0
    have := hmin.1
    rw [h0] at this
    simp [heights] at this
  obtain ⟨mn, mx, hr, hmn, hmx⟩ := heightRange_spec pos hne
  have e1 : mn = minY := IsMinOf_unique hmn hmin
  have e2 : mx = maxY := IsMaxOf_unique hmx hmax
  subst e1 e2
  refine ⟨hr, ?_, ?_⟩
  · intro hneq
    have hle : mn ≤ mx := hmn.2 mx hmx.1
    have hpos : 0 < mx - mn := sub_pos.mpr (lt_of_le_of_ne hle (Ne.symm hneq))
    have hmap : heights (normalizeHeights pos)
        = (heights pos).map (fun y => 1 * (y - (1 / 2) * (mx + mn)) / (mx - mn)) := by
      rw [normalizeHeights_eq pos mn mx hr, if_pos hneq]
      simp only [heights, List.map_map]
      apply List.map_congr_left
      intro q _
      rfl
    have hbound : ∀ y ∈ heights (normalizeHeights pos), -(1 / 2) ≤ y ∧ y ≤ 1 / 2 := by
      intro y hy
      rw [hmap, List.mem_map] at hy
      obtain ⟨y0, hy0, rfl⟩ := hy
      have h1 := hmn.2 y0 hy0
      have h2 := hmx.2 y0 hy0
      constructor
      · rw [le_div_iff₀ hpos]; linarith
      · rw [div_le_iff₀ hpos]; linarith
    have hhi : (1 / 2 : K) ∈ heights (normalizeHeights pos) := by
      rw [hmap, List.mem_map]
      refine ⟨mx, hmx.1, ?_⟩
      field_simp
      ring
    have hlo : (-(1 / 2) : K) ∈ heights (normalizeHeights pos) := by
      rw [hmap, List.mem_map]
      refine ⟨mn, hmn.1, ?_⟩
      field_simp
      ring
    have hMax : IsMaxOf (heights (normalizeHeights pos)) (1 / 2) :=
      ⟨hhi, fun y hy => (hbound y hy).2⟩
    have hMin : IsMinOf (heights (normalizeHeights pos)) (-(1 / 2)) :=
      ⟨hlo, fun y hy => (hbound y hy).1⟩
    refine ⟨hmap, hMax, hMin, hbound, ?_⟩
    intro a b ha hb
    have ea : a = 1 / 2 := IsMaxOf_unique ha hMax
    have eb : b = -(1 / 2) := IsMinOf_unique hb hMin
    rw [ea, eb]
    constructor <;> norm_num
  · intro heq
    rw [normalizeHeights_eq pos mn mx hr, if_neg (not_not.mpr heq)]

/-- Witness of C4 on the heights `1, 3, 2`. -/
theorem normalizeHeights_range_witness :
    IsMinOf (heights [((0 : ℚ), (1 : ℚ), (0 : ℚ), (1 : ℚ)), (0, 3, 0, 1), (0, 2, 0, 1)]) 1
      ∧ IsMaxOf (heights [((0 : ℚ), (1 : ℚ), (0 : ℚ), (1 : ℚ)), (0, 3, 0, 1), (0, 2, 0, 1)]) 3
      ∧ heightRange [((0 : ℚ), (1 : ℚ), (0 : ℚ), (1 : ℚ)), (0, 3, 0, 1), (0, 2, 0, 1)]
          = (some 1, some 3) :=
  have h1 : IsMinOf (heights [((0 : ℚ), (1 : ℚ), (0 : ℚ), (1 : ℚ)), (0, 3, 0, 1), (0, 2, 0, 1)]) 1 := by
    constructor
    · simp [heights]
    · intro y hy
      simp only [heights, List.map_cons, List.map_nil, List.mem_cons, List.mem_singleton,
        List.not_mem_nil, or_false] at hy
      rcases hy with h | h | h <;> rw [h] <;> norm_num
  have h2 : IsMaxOf (heights [((0 : ℚ), (1 : ℚ), (0 : ℚ), (1 : ℚ)), (0, 3, 0, 1), (0, 2, 0, 1)]) 3 := by
    constructor
    · simp [heights]
    · intro y hy
      simp only [heights, List.map_cons, List.map_nil, List.mem_cons, List.mem_singleton,
        List.not_mem_nil, or_false] at hy
      rcases hy with h | h | h <;> rw [h] <;> norm_num
  ⟨h1, h2, (normalizeHeights_range _ 1 3 h1 h2).1⟩

/-- C9: for every list of `gridsize²` positions and every finite sequence of
faults, the fault loop of `makeTerrain` raises each vertex by the sum of the
individual faults' height changes at that vertex; the result is therefore the
same for every permutation of the faults, in particular for `[a, b]` and
`[b, a]`; and the loop of `makeTerrain` is this loop on the drawn faults. -/
theorem applyFaults_additive (gridsize : ℕ) (fs : List (Fault K)) (pos : List (Vec4 K))
    (hlen : pos.length = gridsize * gridsize) :
    applyFaults gridsize fs pos
        = pos.map (fun p => (p.1, p.2.1 + (fs.map (fun f => specFaultDelta f p.1 p.2.2.1)).sum,
            p.2.2.1, p.2.2.2))
      ∧ heights (applyFaults gridsize fs pos)
        = pos.map (fun p => p.2.1 + (fs.map (fun f => specFaultDelta f p.1 p.2.2.1)).sum)
      ∧ (∀ fs' : List (Fault K), fs.Perm fs' →
          applyFaults gridsize fs' pos = applyFaults gridsize fs pos)
      ∧ (∀ a b : Fault K, applyFaults gridsize [a, b] pos = applyFaults gridsize [b, a] pos)
      ∧ (∀ (M : JSMath K) (faults : ℕ),
          forLoop faults pos (fun pos fault => applyFault gridsize (drawFault M fault) pos)
            = applyFaults gridsize ((List.range faults).map (drawFault M)) pos) := by
  have hperm : ∀ l l' : List (Fault K), l.Perm l' →
      applyFaults gridsize l' pos = applyFaults gridsize l pos := by
    intro l l' hp
    rw [applyFaults_eq gridsize l' pos hlen, applyFaults_eq gridsize l pos hlen]
    apply List.map_congr_left
    intro p _
    rw [((hp.map (fun f => specFaultDelta f p.1 p.2.2.1)).sum_eq)]
  refine ⟨applyFaults_eq gridsize fs pos hlen, ?_, hperm fs, ?_, ?_⟩
  · rw [applyFaults_eq gridsize fs pos hlen]
    simp only [heights, List.map_map]
    apply List.map_congr_left
    intro q _
    rfl
  · intro a b
    exact hperm [b, a] [a, b] (List.Perm.swap a b [])
  · intro M faults
    exact faultLoop_eq M gridsize faults pos

/-- Witness of C9 on the flat `2 × 2` grid with the first two drawn faults. -/
theorem applyFaults_additive_witness :
    (gridPositions 2 : List (Vec4 ℚ)).length = 2 * 2
      ∧ applyFaults 2 [drawFault sampleMath 0, drawFault sampleMath 1] (gridPositions 2)
        = applyFaults 2 [drawFault sampleMath 1, drawFault sampleMath 0] (gridPositions 2) :=
  ⟨gridPositions_length 2,
    (applyFaults_additive 2 [drawFault sampleMath 0, drawFault sampleMath 1] (gridPositions 2)
      (gridPositions_length 2)).2.2.2.1 _ _⟩

/-- C10: for `gridsize ≥ 2`, the 16-bit index buffer built by `setupGeomery` from
the triangles of `makeTerrain` has `count = 6*(gridsize-1)²`, and it equals the
flattened triangle index list if and only if `gridsize ≤ 256`; for
`gridsize = 257` triangle number 130560 is `(65535, 65536, 65792)` and its second
index, at place 391681 of the flattened list, is stored as `0`. -/
theorem setupGeomery_uint16 (M : JSMath K) (gridsize faults : ℕ) (h : 2 ≤ gridsize) :
    (setupGeomery (makeTerrain M gridsize faults)).count = 6 * (gridsize - 1) ^ 2
      ∧ (setupGeomery (makeTerrain M gridsize faults)).indices.length = 6 * (gridsize - 1) ^ 2
      ∧ ((setupGeomery (makeTerrain M gridsize faults)).indices
            = (makeTerrain M gridsize faults).triangles.flatMap (fun t => [t.1, t.2.1, t.2.2])
          ↔ gridsize ≤ 256)
      ∧ (makeTerrain M 257 faults).triangles[130560]? = some (65535, 65536, 65792)
      ∧ ((makeTerrain M 257 faults).triangles.flatMap
            (fun t => [t.1, t.2.1, t.2.2]))[391681]? = some 65536
      ∧ (setupGeomery (makeTerrain M 257 faults)).indices[391681]? = some 0 := by
  have hcount : ((gridTriangles gridsize).flatMap fun t => [t.1, t.2.1, t.2.2]).length
      = 6 * (gridsize - 1) ^ 2 := by
    rw [length_flat, gridTriangles_length, sq]; omega
  have htri : (gridTriangles 257)[130560]? = some (65535, 65536, 65792) :=
    (gridTriangles_getElem? 257 255 0 (by decide) (by decide)).1
  have hflat := (getElem?_flat (gridTriangles 257) 130560 _ htri).2.1
  simp only [setupGeomery, makeTerrain_triangles, List.length_map]
  refine ⟨hcount, hcount, ?_, htri, hflat, ?_⟩
  · rw [map_eq_self_iff]
    constructor
    · intro hall
      have hlast := hall _ (last_vertex_mem_flat gridsize h)
      have hlt : gridsize * gridsize - 1 < 65536 := by
        rw [← hlast]; exact Nat.mod_lt _ (by decide)
      by_contra hgt
      have h257 : 257 ≤ gridsize := by omega
      have : 257 * 257 ≤ gridsize * gridsize := Nat.mul_le_mul h257 h257
      omega
    · intro hle x hx
      obtain ⟨t, ht, hxt⟩ := List.mem_flatMap.mp hx
      obtain ⟨b1, b2, b3⟩ := gridTriangles_index_lt gridsize t ht
      have hsq : gridsize * gridsize ≤ 256 * 256 := Nat.mul_le_mul hle hle
      have hxlt : x < gridsize * gridsize := by
        simp only [List.mem_cons, List.mem_singleton, List.not_mem_nil, or_false] at hxt
        rcases hxt with e | e | e <;> rw [e] <;> assumption
      exact Nat.mod_eq_of_lt (by omega)
  · rw [List.getElem?_map, hflat]
    rfl

/-- Witness of C10 at `gridsize = 3`. -/
theorem setupGeomery_uint16_witness :
    2 ≤ 3 ∧ (setupGeomery (makeTerrain sampleMath 3 1)).count = 6 * (3 - 1) ^ 2 :=
  ⟨by decide, (setupGeomery_uint16 sampleMath 3 1 (by decide)).1⟩

/-- C5: for `gridsize ≥ 2` and any heights over the grid (any list of positions
with the grid's `x`, `z`, `w`), every vertex `v` is a corner of some triangle,
the `y` of the sum `addNormals` accumulates for it is a positive multiple of
`step²`, so the sum is not the zero vector and its length, the divisor of the
normalisation, is not zero; the normal stored for `v` is the normalised sum and
has unit length. In particular every normal of `makeTerrain` has unit length,
for any fault count and any draws. The square root is any function that is the
non-negative square root on non-negative numbers. -/
theorem addNormals_unit_length (M : JSMath K) (hs : IsSqrt M.sqrt) (gridsize : ℕ)
    (h : 2 ≤ gridsize) (pos : List (Vec4 K)) (hpos : xzw pos = xzw (gridPositions gridsize))
    (v : ℕ) (hv : v < gridsize ^ 2) :
    (∃ t ∈ gridTriangles gridsize, t.1 = v ∨ t.2.1 = v ∨ t.2.2 = v)
      ∧ (∃ k : ℕ, 0 < k ∧ ((normalSums (gridTriangles gridsize) pos).getD v 0).2.1
          = (k : K) * (2 / ((gridsize : K) - 1)) ^ 2)
      ∧ (normalSums (gridTriangles gridsize) pos).getD v 0 ≠ (0, 0, 0)
      ∧ M.sqrt (normSq ((normalSums (gridTriangles gridsize) pos).getD v 0)) ≠ 0
      ∧ (addNormals M ⟨gridTriangles gridsize, pos, []⟩).normals[v]?
          = some (normalize M ((normalSums (gridTriangles gridsize) pos).getD v 0))
      ∧ normSq (normalize M ((normalSums (gridTriangles gridsize) pos).getD v 0)) = 1
      ∧ (∀ faults, ∃ nv, (makeTerrain M gridsize faults).normals[v]? = some nv
          ∧ normSq nv = 1 ∧ M.sqrt (normSq nv) = 1) := by
  rw [sq] at hv
  obtain ⟨hcc, hy, hne, hmag, hget, hunit⟩ := unit_normal_at M hs gridsize h pos hpos v hv
  refine ⟨exists_triangle_of_vertex gridsize v h hv, ⟨_, hcc, hy⟩, ?_, hmag, hget, hunit, ?_⟩
  · intro h0
    rw [h0] at hne
    exact hne rfl
  · intro faults
    obtain ⟨-, -, -, -, hget', hunit'⟩ := unit_normal_at M hs gridsize h
      (terrainPositions M gridsize faults) (terrainPositions_xzw M gridsize faults) v hv
    exact ⟨_, hget', hunit', by rw [hunit']; exact sqrt_one_of_isSqrt M hs⟩

/-- Witness of C5 over the reals at `gridsize = 2`, the flat grid, vertex 3. -/
theorem addNormals_unit_length_witness :
    IsSqrt Real.sqrt ∧ 2 ≤ 2 ∧ 3 < 2 ^ 2
      ∧ (∀ faults, ∃ nv,
          (makeTerrain (⟨fun _ => 1 / 2, Real.cos, Real.sin, Real.sqrt, Real.pi⟩ : JSMath ℝ)
            2 faults).normals[3]? = some nv ∧ normSq nv = 1 ∧ Real.sqrt (normSq nv) = 1) :=
  have hs : IsSqrt Real.sqrt := fun x hx => ⟨Real.sqrt_nonneg x, Real.mul_self_sqrt hx⟩
  ⟨hs, by decide, by decide,
    (addNormals_unit_length (⟨fun _ => 1 / 2, Real.cos, Real.sin, Real.sqrt, Real.pi⟩ : JSMath ℝ)
      hs 2 (by decide) (gridPositions 2) rfl 3 (by decide)).2.2.2.2.2.2⟩

/-- C2, as stated, fails: `makeTerrain(2, 0)` stores `(1, 0, -1, 1)` at index 1 and
`(-1, 0, 1, 1)` at index 2, so its positions are not the list
`(-1,0,-1,1), (-1,0,1,1), (1,0,-1,1), (1,0,1,1)`. -/
theorem makeTerrain_two_positions_not_as_claimed :
    (makeTerrain sampleMath 2 0).positions[1]? = some ((1, 0, -1, 1) : Vec4 ℚ)
      ∧ (makeTerrain sampleMath 2 0).positions[2]? = some ((-1, 0, 1, 1) : Vec4 ℚ)
      ∧ (makeTerrain sampleMath 2 0).positions
          ≠ [(-1, 0, -1, 1), (-1, 0, 1, 1), (1, 0, -1, 1), (1, 0, 1, 1)] := by
  have h : (makeTerrain sampleMath 2 0).positions
      = [(-1, 0, -1, 1), (1, 0, -1, 1), (-1, 0, 1, 1), (1, 0, 1, 1)] := by
    rw [makeTerrain_positions, terrainPositions_zero sampleMath 2 (by decide), gridPositions_two]
  rw [h]
  refine ⟨rfl, rfl, ?_⟩
  intro hc
  have h1 : ((-1 : ℚ), (0 : ℚ), (1 : ℚ), (1 : ℚ)) = (1, 0, -1, 1) := by
    have := congrArg (fun l => l[1]?) hc
    simpa using this.symm
  have h2 : (-1 : ℚ) = 1 := congrArg Prod.fst h1
  norm_num at h2

/-- C2, amended: `makeTerrain(2, 0)` returns, in index order, the positions
`(-1,0,-1,1), (1,0,-1,1), (-1,0,1,1), (1,0,1,1)`, the triangles
`[(0,1,2), (1,3,2)]` and four normals equal to `(0,1,0)`, for any draws and any
square root that is the non-negative root on non-negative numbers. -/
theorem makeTerrain_two_zero (M : JSMath K) (hs : IsSqrt M.sqrt) :
    (makeTerrain M 2 0).positions = [(-1, 0, -1, 1), (1, 0, -1, 1), (-1, 0, 1, 1), (1, 0, 1, 1)]
      ∧ (makeTerrain M 2 0).triangles = [(0, 1, 2), (1, 3, 2)]
      ∧ (makeTerrain M 2 0).normals = [(0, 1, 0), (0, 1, 0), (0, 1, 0), (0, 1, 0)] := by
  have hp : terrainPositions M 2 0 = gridPositions 2 := terrainPositions_zero M 2 (by decide)
  refine ⟨?_, ?_, ?_⟩
  · rw [makeTerrain_positions, hp, gridPositions_two]
  · rw [makeTerrain_triangles, gridTriangles_two]
  · have h : (makeTerrain M 2 0).normals
        = (normalSums (gridTriangles 2) (terrainPositions M 2 0)).map (normalize M) :=
      addNormals_normals M (gridTriangles 2) (terrainPositions M 2 0)
    have h4 : M.sqrt 16 = 4 := by
      have := sqrt_mul_self_of_isSqrt M hs 4 (by norm_num)
      norm_num at this
      exact this
    have h8 : M.sqrt 64 = 8 := by
      have := sqrt_mul_self_of_isSqrt M hs 8 (by norm_num)
      norm_num at this
      exact this
    rw [h, hp, normalSums_two]
    simp only [List.map_cons, List.map_nil, normalize, normSq]
    norm_num [h4, h8]

/-- Witness of the amended C2 over the reals. -/
theorem makeTerrain_two_zero_witness :
    IsSqrt Real.sqrt
      ∧ (makeTerrain (⟨fun _ => 1 / 2, Real.cos, Real.sin, Real.sqrt, Real.pi⟩ : JSMath ℝ)
          2 0).normals = [(0, 1, 0), (0, 1, 0), (0, 1, 0), (0, 1, 0)] :=
  have hs : IsSqrt Real.sqrt := fun x hx => ⟨Real.sqrt_nonneg x, Real.mul_self_sqrt hx⟩
  ⟨hs, (makeTerrain_two_zero
    (⟨fun _ => 1 / 2, Real.cos, Real.sin, Real.sqrt, Real.pi⟩ : JSMath ℝ) hs).2.2⟩

/-- C6, as stated, fails: with `gridsize = 1` nothing is rejected; `makeTerrain`
returns a geometry with a single position and no triangle, and `generateTerrain`
reading `1` builds an empty index buffer. The divisor `gridsize - 1` of `step`
is zero there. -/
theorem makeTerrain_one_not_rejected :
    (makeTerrain sampleMath 1 3).positions.length = 1
      ∧ (makeTerrain sampleMath 1 3).triangles = []
      ∧ generateTerrain sampleMath 1 3 = ⟨[], 0⟩
      ∧ (((1 : ℕ) : ℚ) - 1 = 0) :=
  ⟨(terrain_of_gridsize_one sampleMath 3).1, (terrain_of_gridsize_one sampleMath 3).2.2,
    indexBuffer_of_gridsize_one sampleMath 3, by norm_num⟩

/-- C6, amended: for every fault count and all draws, generation with
`gridsize = 1` is not rejected: `makeTerrain(1, faultCount)` returns a geometry
with exactly one position, one normal and no triangle; `generateTerrain`
replaces only a reading of `0` by `2`, passes a reading of `1` on unchanged, and
builds from it an empty index buffer with `count = 0`. -/
theorem makeTerrain_gridsize_one (M : JSMath K) (faults : ℕ) :
    (makeTerrain M 1 faults).positions.length = 1
      ∧ (makeTerrain M 1 faults).normals.length = 1
      ∧ (makeTerrain M 1 faults).triangles = []
      ∧ generateTerrain M 1 faults = setupGeomery (makeTerrain M 1 faults)
      ∧ generateTerrain M 0 faults = setupGeomery (makeTerrain M 2 faults)
      ∧ generateTerrain M 1 faults = ⟨[], 0⟩ := by
  obtain ⟨h1, h2, h3⟩ := terrain_of_gridsize_one M faults
  have hf : (if faults = 0 then 0 else faults) = faults := by
    split
    · next h0 => exact h0.symm
    · rfl
  refine ⟨h1, h2, h3, ?_, ?_, indexBuffer_of_gridsize_one M faults⟩
  · simp only [generateTerrain, hf]
    rfl
  · simp only [generateTerrain, hf]
    rfl

end Claims

end Terrain
